import Mathlib

/-!
Shallow embedding of the Boa compiler
(`src/assignment2-boa/solution/src/main.rs`).

The source parses an S-expression (crate `sexp`) into an `Expr` AST
(`parse_expr`) and compiles the AST to a flat sequence of x86-64
instruction lines (`compile_expr`), threading an environment
`HashMap<String, i32>` from variable names to stack offsets and a
`stack_offset` cursor.  Panics in the source are modelled as
`Except.error`; the instruction strings are modelled by the inductive
`Instr`, one constructor per distinct line the source emits, with
`render` giving back the exact text.
-/

namespace Boa

/-- Atoms of the `sexp` crate used by the source: integers (`Atom::I`,
an `i64`) and symbols (`Atom::S`). -/
inductive SAtom where
  | i (n : Int)
  | s (name : String)
deriving DecidableEq, Repr

/-- `Sexp`: an atom or an ordered list of S-expressions. -/
inductive Sexp where
  | atom (a : SAtom)
  | list (l : List Sexp)
deriving Repr

/-- `enum UnOp { Add1, Sub1, Negate }`. -/
inductive UnOp where
  | add1
  | sub1
  | negate
deriving DecidableEq, Repr

/-- `enum BinOp { Plus, Minus, Times }`. -/
inductive BinOp where
  | plus
  | minus
  | times
deriving DecidableEq, Repr

/-- `enum Expr` from main.rs.  `Num` holds an `i32` in the source,
modelled as `Int` (`parse_expr` enforces the 32-bit range on entry);
`Let` holds a `Vec<(String, Expr)>` of bindings and a body. -/
inductive Expr where
  | num (n : Int)
  | var (name : String)
  | lett (bindings : List (String × Expr)) (body : Expr)
  | unop (op : UnOp) (e : Expr)
  | binop (op : BinOp) (e1 : Expr) (e2 : Expr)
deriving Repr

/-- The distinct panics of `parse_expr`, one constructor per panic site. -/
inductive ParseErr where
  /-- `i32::try_from(*n).unwrap()` fails: literal outside the i32 range. -/
  | numOutOfRange (n : Int)
  /-- panic "Invalid use of keyword as identifier: {name}". -/
  | invalidKeywordUse (name : String)
  /-- panic "Let must have at least one binding". -/
  | emptyLet
  /-- panic "Duplicate binding: {name}". -/
  | duplicateBinding (name : String)
  /-- panic "Cannot use keyword as binding name: {name}". -/
  | keywordAsBindingName (name : String)
  /-- panic "Invalid binding: {:?}". -/
  | invalidBinding
  /-- panic "Invalid expression: {:?}". -/
  | invalidExpression
deriving DecidableEq, Repr

/-- The panic of `compile_expr`: "Unbound variable: {name}". -/
inductive CompileErr where
  | unboundVariable (name : String)
deriving DecidableEq, Repr

/-- The keyword test the source repeats at its two reserved-word panic
sites: `"let" | "add1" | "sub1" | "negate"`. -/
def isKeyword (name : String) : Bool :=
  name = "let" || name = "add1" || name = "sub1" || name = "negate"

mutual

/-- `parse_expr` from main.rs, with panics as `Except.error`.  The
match arms keep the source's order and its guard-fallthrough: a
three-element list whose head is a symbol and whose second element is a
list first tries the `let` guard and then the binary-operator guards. -/
def parse_expr : Sexp → Except ParseErr Expr
  | .atom (.i n) =>
      if n < -2147483648 || 2147483647 < n then .error (.numOutOfRange n)
      else .ok (.num n)
  | .atom (.s name) =>
      if isKeyword name then .error (.invalidKeywordUse name)
      else .ok (.var name)
  | .list [.atom (.s kw), .list bindings, body] =>
      if kw = "let" then
        if bindings.isEmpty then .error .emptyLet
        else
          match parseBindings [] bindings with
          | .error e => .error e
          | .ok parsed =>
            match parse_expr body with
            | .error e => .error e
            | .ok b => .ok (.lett parsed b)
      else if kw = "+" then
        match parse_expr (.list bindings) with
        | .error e => .error e
        | .ok a =>
          match parse_expr body with
          | .error e => .error e
          | .ok b => .ok (.binop .plus a b)
      else if kw = "-" then
        match parse_expr (.list bindings) with
        | .error e => .error e
        | .ok a =>
          match parse_expr body with
          | .error e => .error e
          | .ok b => .ok (.binop .minus a b)
      else if kw = "*" then
        match parse_expr (.list bindings) with
        | .error e => .error e
        | .ok a =>
          match parse_expr body with
          | .error e => .error e
          | .ok b => .ok (.binop .times a b)
      else .error .invalidExpression
  | .list [.atom (.s op), e] =>
      if op = "add1" then
        match parse_expr e with
        | .error err => .error err
        | .ok a => .ok (.unop .add1 a)
      else if op = "sub1" then
        match parse_expr e with
        | .error err => .error err
        | .ok a => .ok (.unop .sub1 a)
      else if op = "negate" then
        match parse_expr e with
        | .error err => .error err
        | .ok a => .ok (.unop .negate a)
      else .error .invalidExpression
  | .list [.atom (.s op), e1, e2] =>
      if op = "+" then
        match parse_expr e1 with
        | .error err => .error err
        | .ok a =>
          match parse_expr e2 with
          | .error err => .error err
          | .ok b => .ok (.binop .plus a b)
      else if op = "-" then
        match parse_expr e1 with
        | .error err => .error err
        | .ok a =>
          match parse_expr e2 with
          | .error err => .error err
          | .ok b => .ok (.binop .minus a b)
      else if op = "*" then
        match parse_expr e1 with
        | .error err => .error err
        | .ok a =>
          match parse_expr e2 with
          | .error err => .error err
          | .ok b => .ok (.binop .times a b)
      else .error .invalidExpression
  | .list _ => .error .invalidExpression

/-- The binding loop of the `let` arm of `parse_expr`: `seen` is the
`seen_names` set (the source's `HashSet`, modelled as a list).  Per
binding, in the source's order: shape check, duplicate check, keyword
check, recursive parse of the bound expression. -/
def parseBindings (seen : List String) : List Sexp → Except ParseErr (List (String × Expr))
  | [] => .ok []
  | .list [.atom (.s name), expr] :: rest =>
      if name ∈ seen then .error (.duplicateBinding name)
      else if isKeyword name then .error (.keywordAsBindingName name)
      else
        match parse_expr expr with
        | .error e => .error e
        | .ok parsed =>
          match parseBindings (name :: seen) rest with
          | .error e => .error e
          | .ok restParsed => .ok ((name, parsed) :: restParsed)
  | _ :: _ => .error .invalidBinding

end

/-- One x86-64 instruction line as emitted by `compile_expr`; each
constructor corresponds to exactly one `format!`/string in the source
(`render` below restores the text). -/
inductive Instr where
  | movRaxImm (n : Int)
  | movRaxSlot (off : Int)
  | movSlotRax (off : Int)
  | addRaxOne
  | subRaxOne
  | imulRaxNegOne
  | addRaxSlot (off : Int)
  | movRbxSlot (off : Int)
  | subRbxRax
  | movRaxRbx
  | imulRaxSlot (off : Int)
deriving DecidableEq, Repr

/-- The 1:1 instruction-to-text table of the source's `format!` calls. -/
def render : Instr → String
  | .movRaxImm n => "mov rax, " ++ toString n
  | .movRaxSlot off => "mov rax, [rsp - " ++ toString off ++ "]"
  | .movSlotRax off => "mov [rsp - " ++ toString off ++ "], rax"
  | .addRaxOne => "add rax, 1"
  | .subRaxOne => "sub rax, 1"
  | .imulRaxNegOne => "imul rax, -1"
  | .addRaxSlot off => "add rax, [rsp - " ++ toString off ++ "]"
  | .movRbxSlot off => "mov rbx, [rsp - " ++ toString off ++ "]"
  | .subRbxRax => "sub rbx, rax"
  | .movRaxRbx => "mov rax, rbx"
  | .imulRaxSlot off => "imul rax, [rsp - " ++ toString off ++ "]"

/-- The compile-time environment: `HashMap<String, i32>` from variable
name to stack offset.  Modelled as an association list; the source's
`clone`-then-`insert` becomes cons, and `envGet` takes the most recent
entry, matching `HashMap::insert`'s replace semantics. -/
abbrev Env := List (String × Int)

/-- `env.get(name)`: the most recently inserted value for `name`. -/
def envGet : Env → String → Option Int
  | [], _ => none
  | (n, v) :: rest, name => if n = name then some v else envGet rest name

mutual

/-- `compile_expr(e, env, stack_offset)` from main.rs, producing the
flat list of instruction lines (the source pushes strings and joins
them; concatenation order is identical). -/
def compile_expr : Expr → Env → Int → Except CompileErr (List Instr)
  | .num n, _, _ => .ok [.movRaxImm n]
  | .var name, env, _ =>
      match envGet env name with
      | some off => .ok [.movRaxSlot off]
      | none => .error (.unboundVariable name)
  | .lett bindings body, env, stackOff =>
      match compileBindings bindings env stackOff with
      | .error e => .error e
      | .ok (instrs, newEnv, curOff) =>
        match compile_expr body newEnv curOff with
        | .error e => .error e
        | .ok bodyInstrs => .ok (instrs ++ bodyInstrs)
  | .unop op e, env, stackOff =>
      match compile_expr e env stackOff with
      | .error err => .error err
      | .ok instrs =>
        match op with
        | .add1 => .ok (instrs ++ [.addRaxOne])
        | .sub1 => .ok (instrs ++ [.subRaxOne])
        | .negate => .ok (instrs ++ [.imulRaxNegOne])
  | .binop op e1 e2, env, stackOff =>
      match compile_expr e1 env stackOff with
      | .error err => .error err
      | .ok instrs1 =>
        match compile_expr e2 env (stackOff + 8) with
        | .error err => .error err
        | .ok instrs2 =>
          match op with
          | .plus =>
              .ok (instrs1 ++ [.movSlotRax stackOff] ++ instrs2 ++
                   [.addRaxSlot stackOff])
          | .minus =>
              .ok (instrs1 ++ [.movSlotRax stackOff] ++ instrs2 ++
                   [.movRbxSlot stackOff, .subRbxRax, .movRaxRbx])
          | .times =>
              .ok (instrs1 ++ [.movSlotRax stackOff] ++ instrs2 ++
                   [.imulRaxSlot stackOff])

/-- The binding loop of the `Let` arm of `compile_expr`: compile each
bound expression against the current environment and offset, store the
accumulator at the current offset, insert `name -> offset`, advance the
offset by 8.  Returns the emitted instructions, the final environment
and the final offset. -/
def compileBindings : List (String × Expr) → Env → Int →
    Except CompileErr (List Instr × Env × Int)
  | [], env, curOff => .ok ([], env, curOff)
  | (name, e) :: rest, env, curOff =>
      match compile_expr e env curOff with
      | .error err => .error err
      | .ok instrs =>
        match compileBindings rest ((name, curOff) :: env) (curOff + 8) with
        | .error err => .error err
        | .ok (restInstrs, finalEnv, finalOff) =>
            .ok (instrs ++ [.movSlotRax curOff] ++ restInstrs, finalEnv, finalOff)

end

/-- The abstract machine the emitted instructions act on: the two
registers the source uses and the stack slots `[rsp - off]`, as a map
from offset to value. -/
structure Machine where
  rax : Int
  rbx : Int
  mem : Int → Int

/-- Effect of one instruction line on the machine. -/
def step (s : Machine) : Instr → Machine
  | .movRaxImm n => { s with rax := n }
  | .movRaxSlot off => { s with rax := s.mem off }
  | .movSlotRax off => { s with mem := fun j => if j = off then s.rax else s.mem j }
  | .addRaxOne => { s with rax := s.rax + 1 }
  | .subRaxOne => { s with rax := s.rax - 1 }
  | .imulRaxNegOne => { s with rax := s.rax * (-1) }
  | .addRaxSlot off => { s with rax := s.rax + s.mem off }
  | .movRbxSlot off => { s with rbx := s.mem off }
  | .subRbxRax => { s with rbx := s.rbx - s.rax }
  | .movRaxRbx => { s with rax := s.rbx }
  | .imulRaxSlot off => { s with rax := s.rax * s.mem off }

/-- Run an instruction sequence from a machine state. -/
def run (s : Machine) (instrs : List Instr) : Machine :=
  instrs.foldl step s

end Boa

namespace Boa

/-- `Except.ok`-test, for stating that a build returned no expression. -/
def exOk {ε α : Type} : Except ε α → Bool
  | .ok _ => true
  | .error _ => false

/-- The stack offset an instruction line mentions, if any. -/
def slotOf : Instr → Option Int
  | .movRaxSlot off => some off
  | .movSlotRax off => some off
  | .addRaxSlot off => some off
  | .movRbxSlot off => some off
  | .imulRaxSlot off => some off
  | _ => none

/-- The offsets of the store instructions of a sequence, in emission order. -/
def storeOffsets (instrs : List Instr) : List Int :=
  instrs.filterMap fun i =>
    match i with
    | .movSlotRax off => some off
    | _ => none

/-- Whether a list of offsets is monotonically increasing (weakly). -/
def nondecreasing : List Int → Bool
  | [] => true
  | [_] => true
  | a :: b :: rest => a ≤ b && nondecreasing (b :: rest)

/-- The binding names that appear in well-shaped `(name expr)` pairs of a
raw `let` bindings list. -/
def bindingNames : List Sexp → List String
  | [] => []
  | .list [.atom (.s name), _] :: rest => name :: bindingNames rest
  | _ :: rest => bindingNames rest

/-- The all-zero machine state used to evaluate generated code. -/
def machine0 : Machine := ⟨0, 0, fun _ => 0⟩

/-! Concrete inputs of the end-to-end claims, as `sexp` term trees. -/

/-- The term `(let ((x 5) (y 6)) (+ x (* y 2)))`. -/
def c1Input : Sexp :=
  .list [.atom (.s "let"),
         .list [.list [.atom (.s "x"), .atom (.i 5)],
                .list [.atom (.s "y"), .atom (.i 6)]],
         .list [.atom (.s "+"), .atom (.s "x"),
                .list [.atom (.s "*"), .atom (.s "y"), .atom (.i 2)]]]

/-- The AST of `c1Input`. -/
def c1Expr : Expr :=
  .lett [("x", .num 5), ("y", .num 6)]
    (.binop .plus (.var "x") (.binop .times (.var "y") (.num 2)))

/-- The instruction sequence the source emits for `c1Input` when compiled
with the empty environment and starting offset 8 (as `main` does). -/
def c1Instrs : List Instr :=
  [.movRaxImm 5, .movSlotRax 8,
   .movRaxImm 6, .movSlotRax 16,
   .movRaxSlot 8, .movSlotRax 24,
   .movRaxSlot 16, .movSlotRax 32,
   .movRaxImm 2, .imulRaxSlot 32,
   .addRaxSlot 24]

/-- The term `(let ((x 1) (y x)) y)`. -/
def c3Input : Sexp :=
  .list [.atom (.s "let"),
         .list [.list [.atom (.s "x"), .atom (.i 1)],
                .list [.atom (.s "y"), .atom (.s "x")]],
         .atom (.s "y")]

/-- The term `(let ((x 1)) (let ((x 2)) x))`. -/
def c4Input : Sexp :=
  .list [.atom (.s "let"),
         .list [.list [.atom (.s "x"), .atom (.i 1)]],
         .list [.atom (.s "let"),
                .list [.list [.atom (.s "x"), .atom (.i 2)]],
                .atom (.s "x")]]

/-- The term `(let ((x 1) (x 2)) x)`. -/
def c6Input : Sexp :=
  .list [.atom (.s "let"),
         .list [.list [.atom (.s "x"), .atom (.i 1)],
                .list [.atom (.s "x"), .atom (.i 2)]],
         .atom (.s "x")]

/-- The term `(let ((x (1 2)) (x 3)) x)`: the name `x` is bound in two
binding pairs, but the first binding's expression `(1 2)` is malformed. -/
def c6CexInput : Sexp :=
  .list [.atom (.s "let"),
         .list [.list [.atom (.s "x"), .list [.atom (.i 1), .atom (.i 2)]],
                .list [.atom (.s "x"), .atom (.i 3)]],
         .atom (.s "x")]

/-- The term `(let ((+ 1)) +)`: the operator token `+` used both as a
binding name and as a variable reference. -/
def c7CexInput : Sexp :=
  .list [.atom (.s "let"),
         .list [.list [.atom (.s "+"), .atom (.i 1)]],
         .atom (.s "+")]

/-- The term `(+ (let ((x 1) (y 2)) x) 3)`. -/
def c9Input : Sexp :=
  .list [.atom (.s "+"),
         .list [.atom (.s "let"),
                .list [.list [.atom (.s "x"), .atom (.i 1)],
                       .list [.atom (.s "y"), .atom (.i 2)]],
                .atom (.s "x")],
         .atom (.i 3)]

/-- The AST of `c9Input`. -/
def c9Expr : Expr :=
  .binop .plus (.lett [("x", .num 1), ("y", .num 2)] (.var "x")) (.num 3)

/-- The instruction sequence the source emits for `c9Input` at offset 8. -/
def c9Instrs : List Instr :=
  [.movRaxImm 1, .movSlotRax 8,
   .movRaxImm 2, .movSlotRax 16,
   .movRaxSlot 8,
   .movSlotRax 8,
   .movRaxImm 3,
   .addRaxSlot 8]

mutual

/-- The names of the reachable variable references of an expression that
do not resolve against the active scope, in the order `compile_expr`
visits them; `keys` is the set of names bound by the environment.  The
scope is threaded exactly as `compile_expr` threads `env`: each `let`
binding's expression sees the names of all earlier bindings of its form,
and the body sees all of them. -/
def unboundVars : Expr → List String → List String
  | .num _, _ => []
  | .var name, keys => if name ∈ keys then [] else [name]
  | .lett bs body, keys =>
      (unboundVarsBindings bs keys).1 ++
        unboundVars body (unboundVarsBindings bs keys).2
  | .unop _ e, keys => unboundVars e keys
  | .binop _ e1 e2, keys => unboundVars e1 keys ++ unboundVars e2 keys

/-- Unresolved names of a binding list (first component) and the scope
after all its bindings (second component). -/
def unboundVarsBindings : List (String × Expr) → List String → List String × List String
  | [], keys => ([], keys)
  | (n, e) :: rest, keys =>
      (unboundVars e keys ++ (unboundVarsBindings rest (n :: keys)).1,
       (unboundVarsBindings rest (n :: keys)).2)

end

/-- Value of a unary operator, mirroring the instruction `compile_expr`
emits for it (`add rax, 1`; `sub rax, 1`; `imul rax, -1`). -/
def unopEval : UnOp → Int → Int
  | .add1, v => v + 1
  | .sub1, v => v - 1
  | .negate, v => v * (-1)

/-- Value of a binary operator on left and right operand values. -/
def binopEval : BinOp → Int → Int → Int
  | .plus, v1, v2 => v1 + v2
  | .minus, v1, v2 => v1 - v2
  | .times, v1, v2 => v1 * v2

mutual

/-- Reference meaning of an expression: sequential left-to-right `let`
bindings over a name-to-value environment, `none` on an unbound
variable.  This is the specification-side semantics that the generated
instruction sequences are proved to implement. -/
def evalExpr : Expr → List (String × Int) → Option Int
  | .num n, _ => some n
  | .var name, venv => envGet venv name
  | .lett bs body, venv =>
      match evalBindings bs venv with
      | none => none
      | some venv2 => evalExpr body venv2
  | .unop op e, venv =>
      match evalExpr e venv with
      | none => none
      | some v => some (unopEval op v)
  | .binop op e1 e2, venv =>
      match evalExpr e1 venv with
      | none => none
      | some v1 =>
        match evalExpr e2 venv with
        | none => none
        | some v2 => some (binopEval op v1 v2)

/-- Evaluate a binding list left to right, extending the environment. -/
def evalBindings : List (String × Expr) → List (String × Int) →
    Option (List (String × Int))
  | [], venv => some venv
  | (n, e) :: rest, venv =>
      match evalExpr e venv with
      | none => none
      | some v => evalBindings rest ((n, v) :: venv)

end

section MutualInduction

variable {P : Expr → Prop} {Q : List (String × Expr) → Prop}

mutual

/-- Mutual structural induction for `Expr` and its nested binding
lists. -/
def exprRecP (hnum : ∀ n, P (.num n)) (hvar : ∀ s, P (.var s))
    (hlet : ∀ bs body, Q bs → P body → P (.lett bs body))
    (hunop : ∀ op e, P e → P (.unop op e))
    (hbinop : ∀ op e1 e2, P e1 → P e2 → P (.binop op e1 e2))
    (hnil : Q [])
    (hcons : ∀ n e rest, P e → Q rest → Q ((n, e) :: rest)) :
    ∀ e : Expr, P e
  | .num n => hnum n
  | .var s => hvar s
  | .lett bs body =>
      hlet bs body (bindRecQ hnum hvar hlet hunop hbinop hnil hcons bs)
        (exprRecP hnum hvar hlet hunop hbinop hnil hcons body)
  | .unop op e => hunop op e (exprRecP hnum hvar hlet hunop hbinop hnil hcons e)
  | .binop op e1 e2 =>
      hbinop op e1 e2 (exprRecP hnum hvar hlet hunop hbinop hnil hcons e1)
        (exprRecP hnum hvar hlet hunop hbinop hnil hcons e2)

/-- Companion recursion over binding lists for `exprRecP`. -/
def bindRecQ (hnum : ∀ n, P (.num n)) (hvar : ∀ s, P (.var s))
    (hlet : ∀ bs body, Q bs → P body → P (.lett bs body))
    (hunop : ∀ op e, P e → P (.unop op e))
    (hbinop : ∀ op e1 e2, P e1 → P e2 → P (.binop op e1 e2))
    (hnil : Q [])
    (hcons : ∀ n e rest, P e → Q rest → Q ((n, e) :: rest)) :
    ∀ bs : List (String × Expr), Q bs
  | [] => hnil
  | (n, e) :: rest =>
      hcons n e rest (exprRecP hnum hvar hlet hunop hbinop hnil hcons e)
        (bindRecQ hnum hvar hlet hunop hbinop hnil hcons rest)

end

end MutualInduction

/-- The property of claim C8, per expression: compilation succeeds
exactly when no reachable reference is unresolved, and otherwise fails
with the first unresolved name. -/
def UnboundP (e : Expr) : Prop :=
  ∀ (env : Env) (k : Int),
    (unboundVars e (env.map Prod.fst) = [] →
       ∃ instrs, compile_expr e env k = .ok instrs) ∧
    (∀ n ns, unboundVars e (env.map Prod.fst) = n :: ns →
       compile_expr e env k = .error (.unboundVariable n))

/-- The companion property of claim C8 for binding lists. -/
def UnboundQ (bs : List (String × Expr)) : Prop :=
  ∀ (env : Env) (k : Int),
    ((unboundVarsBindings bs (env.map Prod.fst)).1 = [] →
       ∃ instrs env2 k2, compileBindings bs env k = .ok (instrs, env2, k2) ∧
         env2.map Prod.fst = (unboundVarsBindings bs (env.map Prod.fst)).2) ∧
    (∀ n ns, (unboundVarsBindings bs (env.map Prod.fst)).1 = n :: ns →
       compileBindings bs env k = .error (.unboundVariable n))

/-- The compile-time environment and a machine state realise a value
environment: every name the compile-time environment maps to a slot has
a value in the value environment, and that slot holds that value. -/
def EnvAgrees (env : Env) (venv : List (String × Int)) (s : Machine) : Prop :=
  ∀ n off, envGet env n = some off →
    ∃ v, envGet venv n = some v ∧ s.mem off = v

/-- Every slot the environment maps to lies below the cursor `k`. -/
def EnvBelow (env : Env) (k : Int) : Prop :=
  ∀ n off, envGet env n = some off → off < k

/-- Claim C1: building and generating `(let ((x 5) (y 6)) (+ x (* y 2)))`
succeeds, yields exactly the sequence load 5 / store slot 8; load 6 /
store slot 16; load slot 8; store slot 24 (spilled left of `+`); load
slot 16; store slot 32 (spilled left of `*`); load 2; multiply from slot
32; add from slot 24 — and running that sequence leaves 17 in `rax`. -/
theorem claim_c1_end_to_end :
    parse_expr c1Input = .ok c1Expr ∧
    compile_expr c1Expr [] 8 = .ok c1Instrs ∧
    (run machine0 c1Instrs).rax = 17 :=
  ⟨rfl, rfl, rfl⟩

/-- Claim C2: compiling `UnOp(op, e)` at `(env, k)` yields exactly the
sequence compiled for `e` at `(env, k)` followed by the one instruction
of `op`: `add rax, 1` for Add1, `sub rax, 1` for Sub1, `imul rax, -1`
for Negate. -/
theorem claim_c2_unop_suffix (e : Expr) (env : Env) (k : Int)
    (instrs : List Instr) (h : compile_expr e env k = .ok instrs) :
    compile_expr (.unop .add1 e) env k = .ok (instrs ++ [.addRaxOne]) ∧
    compile_expr (.unop .sub1 e) env k = .ok (instrs ++ [.subRaxOne]) ∧
    compile_expr (.unop .negate e) env k = .ok (instrs ++ [.imulRaxNegOne]) := by
  refine ⟨?_, ?_, ?_⟩ <;> simp [compile_expr, h]

theorem claim_c2_unop_suffix_witness :
    compile_expr (.unop .add1 (.num 7)) [] 8 = .ok [.movRaxImm 7, .addRaxOne] ∧
    compile_expr (.unop .sub1 (.num 7)) [] 8 = .ok [.movRaxImm 7, .subRaxOne] ∧
    compile_expr (.unop .negate (.num 7)) [] 8 = .ok [.movRaxImm 7, .imulRaxNegOne] :=
  claim_c2_unop_suffix (.num 7) [] 8 [.movRaxImm 7] rfl

/-- Claim C3: `(let ((x 1) (y x)) y)` builds and compiles without an
unbound-variable failure; the load emitted for the reference to `x`
inside `y`'s binding expression (third instruction, slot 8) reads the
slot written by the store for `x`'s binding (second instruction,
slot 8): each binding's expression is compiled against an environment
holding all earlier bindings of the same form. -/
theorem claim_c3_sequential_bindings :
    parse_expr c3Input = .ok (.lett [("x", .num 1), ("y", .var "x")] (.var "y")) ∧
    compile_expr (.lett [("x", .num 1), ("y", .var "x")] (.var "y")) [] 8 =
      .ok [.movRaxImm 1, .movSlotRax 8, .movRaxSlot 8, .movSlotRax 16,
           .movRaxSlot 16] :=
  ⟨rfl, rfl⟩

/-- Claim C4: `(let ((x 1)) (let ((x 2)) x))` compiles so that the load
for the body's reference to `x` (last instruction) reads slot 16, the
slot stored by the inner binding (fourth instruction), not slot 8 stored
by the outer binding: the inner binding shadows the outer one. -/
theorem claim_c4_shadowing :
    parse_expr c4Input =
      .ok (.lett [("x", .num 1)] (.lett [("x", .num 2)] (.var "x"))) ∧
    compile_expr (.lett [("x", .num 1)] (.lett [("x", .num 2)] (.var "x"))) [] 8 =
      .ok [.movRaxImm 1, .movSlotRax 8, .movRaxImm 2, .movSlotRax 16,
           .movRaxSlot 16] :=
  ⟨rfl, rfl⟩

/-- Claim C5: for `BinOp(Minus, a, b)`, whenever both operands compile,
the whole compiles to `a`'s instructions, then the spill of the left
value to the slot at the current offset, then `b`'s instructions, then
the reversed-subtract pattern `mov rbx, [rsp - k]`; `sub rbx, rax`;
`mov rax, rbx` — so every instruction of `a` precedes every instruction
of `b`, and the combiner computes left minus right via the scratch
register. -/
theorem claim_c5_minus_order (a b : Expr) (env : Env) (k : Int)
    (ia ib : List Instr)
    (ha : compile_expr a env k = .ok ia)
    (hb : compile_expr b env (k + 8) = .ok ib) :
    compile_expr (.binop .minus a b) env k =
      .ok (ia ++ [.movSlotRax k] ++ ib ++
           [.movRbxSlot k, .subRbxRax, .movRaxRbx]) := by
  simp [compile_expr, ha, hb]

theorem claim_c5_minus_order_witness :
    compile_expr (.binop .minus (.num 3) (.num 4)) [] 8 =
      .ok [.movRaxImm 3, .movSlotRax 8, .movRaxImm 4,
           .movRbxSlot 8, .subRbxRax, .movRaxRbx] :=
  claim_c5_minus_order (.num 3) (.num 4) [] 8 [.movRaxImm 3] [.movRaxImm 4] rfl rfl

/-- Claim C6, counterexample to the general clause: in
`(let ((x (1 2)) (x 3)) x)` the name `x` appears in two binding pairs,
yet the build fails with `invalidExpression` (raised while parsing the
malformed first binding expression `(1 2)`), not with
`DuplicateBinding("x")`. -/
theorem claim_c6_counterexample :
    parse_expr c6CexInput = .error .invalidExpression ∧
    parse_expr c6CexInput ≠ .error (.duplicateBinding "x") := by
  refine ⟨rfl, ?_⟩
  intro h
  rw [show parse_expr c6CexInput = .error .invalidExpression from rfl] at h
  simp at h

/-- Claim C7, counterexample: the operator token `+` is not rejected as
an identifier — bare `+` builds to `VariableReference("+")`, and
`(let ((+ 1)) +)` builds successfully with `+` as a binding name, with
no `ReservedWordMisuse` failure. -/
theorem claim_c7_counterexample :
    parse_expr (.atom (.s "+")) = .ok (.var "+") ∧
    parse_expr c7CexInput = .ok (.lett [("+", .num 1)] (.var "+")) :=
  ⟨rfl, rfl⟩

/-- Claim C7, amended: the reserved words are exactly `let`, `add1`,
`sub1`, `negate`; each fails as a bare identifier (keyword-as-identifier
panic) and as a binding name (keyword-as-binding-name panic), while the
operator tokens `+`, `-`, `*` are accepted as identifiers and binding
names. -/
theorem claim_c7_amended :
    parse_expr (.atom (.s "let")) = .error (.invalidKeywordUse "let") ∧
    parse_expr (.atom (.s "add1")) = .error (.invalidKeywordUse "add1") ∧
    parse_expr (.atom (.s "sub1")) = .error (.invalidKeywordUse "sub1") ∧
    parse_expr (.atom (.s "negate")) = .error (.invalidKeywordUse "negate") ∧
    parse_expr (.list [.atom (.s "let"),
        .list [.list [.atom (.s "let"), .atom (.i 1)]], .atom (.i 0)]) =
      .error (.keywordAsBindingName "let") ∧
    parse_expr (.list [.atom (.s "let"),
        .list [.list [.atom (.s "add1"), .atom (.i 1)]], .atom (.i 0)]) =
      .error (.keywordAsBindingName "add1") ∧
    parse_expr (.list [.atom (.s "let"),
        .list [.list [.atom (.s "sub1"), .atom (.i 1)]], .atom (.i 0)]) =
      .error (.keywordAsBindingName "sub1") ∧
    parse_expr (.list [.atom (.s "let"),
        .list [.list [.atom (.s "negate"), .atom (.i 1)]], .atom (.i 0)]) =
      .error (.keywordAsBindingName "negate") ∧
    parse_expr (.atom (.s "-")) = .ok (.var "-") ∧
    parse_expr (.atom (.s "*")) = .ok (.var "*") ∧
    parse_expr (.list [.atom (.s "let"),
        .list [.list [.atom (.s "*"), .atom (.i 1)]], .atom (.s "*")]) =
      .ok (.lett [("*", .num 1)] (.var "*")) :=
  ⟨rfl, rfl, rfl, rfl, rfl, rfl, rfl, rfl, rfl, rfl, rfl⟩

/-- Claim C9, counterexample to the monotonicity clause: compiling
`(+ (let ((x 1) (y 2)) x) 3)` emits stores at offsets 8, 16, 8 in that
order — the spill of `+`'s left operand reuses offset 8 after the inner
let stored at 8 and 16 — so the store offsets of the output are not
monotonically increasing. -/
theorem claim_c9_counterexample :
    parse_expr c9Input = .ok c9Expr ∧
    compile_expr c9Expr [] 8 = .ok c9Instrs ∧
    storeOffsets c9Instrs = [8, 16, 8] ∧
    nondecreasing (storeOffsets c9Instrs) = false :=
  ⟨rfl, rfl, rfl, rfl⟩

end Boa

namespace Boa

/-- `envGet` misses exactly the names outside the environment's keys. -/
theorem envGet_none_iff (env : Env) (name : String) :
    envGet env name = none ↔ name ∉ env.map Prod.fst := by
  induction env with
  | nil => simp [envGet]
  | cons p rest ih =>
      obtain ⟨n, v⟩ := p
      by_cases h : n = name
      · subst h
        simp [envGet]
      · simp only [envGet, if_neg h, List.map_cons, List.mem_cons, ih]
        constructor
        · intro hn hmem
          rcases hmem with h1 | h2
          · exact h h1.symm
          · exact hn h2
        · intro hn
          exact fun h2 => hn (Or.inr h2)

/-- Every expression satisfies the unbound-variable property of C8. -/
theorem unboundP_all : ∀ e, UnboundP e := by
  refine exprRecP (Q := UnboundQ) ?_ ?_ ?_ ?_ ?_ ?_ ?_
  · -- num
    intro n env k
    constructor
    · intro _
      exact ⟨[.movRaxImm n], rfl⟩
    · intro m ns h
      simp [unboundVars] at h
  · -- var
    intro s env k
    by_cases hm : s ∈ env.map Prod.fst
    · cases henv : envGet env s with
      | none => exact absurd hm ((envGet_none_iff env s).mp henv)
      | some off =>
          constructor
          · intro _
            exact ⟨[.movRaxSlot off], by simp [compile_expr, henv]⟩
          · intro m ns h
            simp [unboundVars, hm] at h
    · have henv : envGet env s = none := (envGet_none_iff env s).mpr hm
      constructor
      · intro h
        simp [unboundVars, hm] at h
      · intro m ns h
        simp [unboundVars, hm] at h
        obtain ⟨h1, _⟩ := h
        subst h1
        simp [compile_expr, henv]
  · -- lett
    intro bs body hq hp env k
    cases hpair : unboundVarsBindings bs (env.map Prod.fst) with
    | mk l keys2 =>
      cases l with
      | cons m ms =>
          have herr := (hq env k).2 m ms (by rw [hpair])
          constructor
          · intro h0
            simp [unboundVars, hpair] at h0
          · intro n ns h1
            simp [unboundVars, hpair] at h1
            obtain ⟨h2, _⟩ := h1
            subst h2
            simp [compile_expr, herr]
      | nil =>
          obtain ⟨is1, env2, k2, hcomp, hkeys0⟩ := (hq env k).1 (by rw [hpair])
          rw [hpair] at hkeys0
          have hkeys : env2.map Prod.fst = keys2 := hkeys0
          cases hb : unboundVars body (env2.map Prod.fst) with
          | nil =>
              obtain ⟨is2, hcomp2⟩ := (hp env2 k2).1 hb
              constructor
              · intro _
                exact ⟨is1 ++ is2, by simp [compile_expr, hcomp, hcomp2]⟩
              · intro n ns h1
                simp [unboundVars, hpair] at h1
                rw [← hkeys, hb] at h1
                cases h1
          | cons n0 ns0 =>
              have herr2 := (hp env2 k2).2 n0 ns0 hb
              constructor
              · intro h0
                simp [unboundVars, hpair] at h0
                rw [← hkeys, hb] at h0
                cases h0
              · intro n ns h1
                simp [unboundVars, hpair] at h1
                rw [← hkeys, hb] at h1
                injection h1 with h2 h3
                subst h2
                simp [compile_expr, hcomp, herr2]
  · -- unop
    intro op e hpe env k
    cases he : unboundVars e (env.map Prod.fst) with
    | nil =>
        obtain ⟨is1, hc1⟩ := (hpe env k).1 he
        constructor
        · intro _
          cases op with
          | add1 => exact ⟨is1 ++ [.addRaxOne], by simp [compile_expr, hc1]⟩
          | sub1 => exact ⟨is1 ++ [.subRaxOne], by simp [compile_expr, hc1]⟩
          | negate => exact ⟨is1 ++ [.imulRaxNegOne], by simp [compile_expr, hc1]⟩
        · intro n ns h1
          simp [unboundVars, he] at h1
    | cons m ms =>
        have herr := (hpe env k).2 m ms he
        constructor
        · intro h0
          simp [unboundVars, he] at h0
        · intro n ns h1
          simp only [unboundVars, he] at h1
          injection h1 with h2 h3
          subst h2
          cases op <;> simp [compile_expr, herr]
  · -- binop
    intro op e1 e2 hp1 hp2 env k
    cases h1 : unboundVars e1 (env.map Prod.fst) with
    | cons m ms =>
        have herr := (hp1 env k).2 m ms h1
        constructor
        · intro h0
          simp [unboundVars, h1] at h0
        · intro n ns hx
          simp only [unboundVars, h1, List.cons_append] at hx
          injection hx with h2 h3
          subst h2
          cases op <;> simp [compile_expr, herr]
    | nil =>
        obtain ⟨is1, hc1⟩ := (hp1 env k).1 h1
        cases h2 : unboundVars e2 (env.map Prod.fst) with
        | nil =>
            obtain ⟨is2, hc2⟩ := (hp2 env (k + 8)).1 h2
            constructor
            · intro _
              cases op with
              | plus =>
                  exact ⟨is1 ++ [.movSlotRax k] ++ is2 ++ [.addRaxSlot k],
                    by simp [compile_expr, hc1, hc2]⟩
              | minus =>
                  exact ⟨is1 ++ [.movSlotRax k] ++ is2 ++
                      [.movRbxSlot k, .subRbxRax, .movRaxRbx],
                    by simp [compile_expr, hc1, hc2]⟩
              | times =>
                  exact ⟨is1 ++ [.movSlotRax k] ++ is2 ++ [.imulRaxSlot k],
                    by simp [compile_expr, hc1, hc2]⟩
            · intro n ns hx
              simp [unboundVars, h1, h2] at hx
        | cons m ms =>
            have herr2 := (hp2 env (k + 8)).2 m ms h2
            constructor
            · intro h0
              simp [unboundVars, h1, h2] at h0
            · intro n ns hx
              simp only [unboundVars, h1, h2, List.nil_append] at hx
              injection hx with hx2 hx3
              subst hx2
              cases op <;> simp [compile_expr, hc1, herr2]
  · -- Q nil
    intro env k
    constructor
    · intro _
      exact ⟨[], env, k, rfl, rfl⟩
    · intro n ns h
      simp [unboundVarsBindings] at h
  · -- Q cons
    intro n e rest hpe hqr env k
    cases he : unboundVars e (env.map Prod.fst) with
    | cons m ms =>
        have herr := (hpe env k).2 m ms he
        constructor
        · intro h0
          simp [unboundVarsBindings, he] at h0
        · intro n' ns h1
          simp only [unboundVarsBindings, he, List.cons_append] at h1
          injection h1 with h2 h3
          subst h2
          simp [compileBindings, herr]
    | nil =>
        obtain ⟨is1, hc1⟩ := (hpe env k).1 he
        have hrest := hqr ((n, k) :: env) (k + 8)
        simp only [List.map_cons] at hrest
        cases hpair : unboundVarsBindings rest (n :: env.map Prod.fst) with
        | mk l keys2 =>
          cases l with
          | nil =>
              obtain ⟨isr, env2, k2, hcr, hkeys⟩ := hrest.1 (by rw [hpair])
              rw [hpair] at hkeys
              constructor
              · intro _
                refine ⟨is1 ++ [.movSlotRax k] ++ isr, env2, k2, ?_, ?_⟩
                · simp [compileBindings, hc1, hcr]
                · simp only [unboundVarsBindings, hpair]
                  exact hkeys
              · intro n' ns h1
                simp [unboundVarsBindings, he, hpair] at h1
          | cons m ms =>
              have herr := hrest.2 m ms (by rw [hpair])
              constructor
              · intro h0
                simp [unboundVarsBindings, he, hpair] at h0
              · intro n' ns h1
                simp only [unboundVarsBindings, he, hpair, List.nil_append] at h1
                injection h1 with h2 h3
                subst h2
                simp [compileBindings, hc1, herr]

/-- Claim C8: `compile_expr` fails with `UnboundVariable(n)` where `n`
is the first reachable reference (in generation order) that does not
resolve against the environment active at its position, and it emits no
instruction sequence in that case; conversely, when every reachable
reference resolves (`unboundVars` is empty), generation succeeds. -/
theorem claim_c8_unbound_variable (e : Expr) (env : Env) (k : Int) :
    (unboundVars e (env.map Prod.fst) = [] →
       ∃ instrs, compile_expr e env k = .ok instrs) ∧
    (∀ n ns, unboundVars e (env.map Prod.fst) = n :: ns →
       compile_expr e env k = .error (.unboundVariable n)) :=
  unboundP_all e env k

theorem claim_c8_unbound_variable_witness :
    compile_expr (.var "z") [] 8 = .error (.unboundVariable "z") ∧
    compile_expr (.lett [("w", .num 1)] (.var "w")) [] 8 =
      .ok [.movRaxImm 1, .movSlotRax 8, .movRaxSlot 8] := by
  constructor
  · exact (claim_c8_unbound_variable (.var "z") [] 8).2 "z" [] rfl
  · obtain ⟨instrs, h⟩ :=
      (claim_c8_unbound_variable (.lett [("w", .num 1)] (.var "w")) [] 8).1 rfl
    rw [show compile_expr (.lett [("w", .num 1)] (.var "w")) [] 8 =
          .ok [.movRaxImm 1, .movSlotRax 8, .movRaxSlot 8] from rfl]

end Boa

namespace Boa

/-- Running a sequence whose stores all target offsets at or above `k`
leaves every memory slot below `k` unchanged. -/
theorem run_mem_of_stores_ge (instrs : List Instr) (k : Int)
    (h : ∀ off, Instr.movSlotRax off ∈ instrs → k ≤ off) :
    ∀ (s : Machine) (j : Int), j < k → (run s instrs).mem j = s.mem j := by
  induction instrs with
  | nil => intro s j _; rfl
  | cons i rest ih =>
      intro s j hj
      have hrest : ∀ off, Instr.movSlotRax off ∈ rest → k ≤ off :=
        fun off hm => h off (List.mem_cons_of_mem i hm)
      have hstep : run s (i :: rest) = run (step s i) rest := rfl
      rw [hstep, ih hrest (step s i) j hj]
      cases i with
      | movSlotRax off =>
          have hk := h off (List.mem_cons_self _ _)
          simp only [step]
          rw [if_neg (by omega)]
      | movRaxImm n => rfl
      | movRaxSlot off => rfl
      | addRaxOne => rfl
      | subRaxOne => rfl
      | imulRaxNegOne => rfl
      | addRaxSlot off => rfl
      | movRbxSlot off => rfl
      | subRbxRax => rfl
      | movRaxRbx => rfl
      | imulRaxSlot off => rfl

/-- Appending one slot-free instruction preserves the two offset
invariants of claim C10. -/
theorem append_no_slot_inv (is1 : List Instr) (x : Instr)
    (hx : slotOf x = none) (env : Env) (k : Int)
    (h1 : ∀ i ∈ is1, ∀ off, slotOf i = some off →
       (∃ n, envGet env n = some off) ∨ k ≤ off)
    (h2 : ∀ off, Instr.movSlotRax off ∈ is1 → k ≤ off) :
    (∀ i ∈ is1 ++ [x], ∀ off, slotOf i = some off →
       (∃ n, envGet env n = some off) ∨ k ≤ off) ∧
    (∀ off, Instr.movSlotRax off ∈ is1 ++ [x] → k ≤ off) := by
  constructor
  · intro i hi off hs
    rcases List.mem_append.mp hi with h | h
    · exact h1 i h off hs
    · simp at h
      subst h
      rw [hx] at hs
      cases hs
  · intro off hmem
    rcases List.mem_append.mp hmem with h | h
    · exact h2 off h
    · simp at h
      subst h
      simp [slotOf] at hx

/-- The offset invariant of claim C10, proved for `compile_expr` and
`compileBindings` together: every slot offset the emitted code mentions
is in the image of the incoming environment or at least the incoming
cursor; every store targets at least the cursor; the binding loop's
final cursor is at least the incoming one and its final environment
maps only to old-image offsets or offsets in `[k, k2)`. -/
theorem compile_offsets_spec :
    ∀ e : Expr, ∀ (env : Env) (k : Int) (instrs : List Instr),
      compile_expr e env k = .ok instrs →
      (∀ i ∈ instrs, ∀ off, slotOf i = some off →
         (∃ n, envGet env n = some off) ∨ k ≤ off) ∧
      (∀ off, Instr.movSlotRax off ∈ instrs → k ≤ off) := by
  refine exprRecP
    (Q := fun bs => ∀ (env : Env) (k : Int) (instrs : List Instr) (env2 : Env) (k2 : Int),
      compileBindings bs env k = .ok (instrs, env2, k2) →
      (∀ i ∈ instrs, ∀ off, slotOf i = some off →
         (∃ n, envGet env n = some off) ∨ k ≤ off) ∧
      (∀ off, Instr.movSlotRax off ∈ instrs → k ≤ off) ∧
      k ≤ k2 ∧
      (∀ n v, envGet env2 n = some v →
         (∃ m, envGet env m = some v) ∨ (k ≤ v ∧ v < k2)))
    ?_ ?_ ?_ ?_ ?_ ?_ ?_
  · -- num
    intro n env k instrs h
    simp [compile_expr] at h
    subst h
    refine ⟨?_, ?_⟩
    · intro i hi off hs
      simp at hi
      subst hi
      simp [slotOf] at hs
    · intro off hmem
      simp at hmem
  · -- var
    intro s env k instrs h
    cases henv : envGet env s with
    | none => simp [compile_expr, henv] at h
    | some off0 =>
        simp [compile_expr, henv] at h
        subst h
        refine ⟨?_, ?_⟩
        · intro i hi off hs
          simp at hi
          subst hi
          simp [slotOf] at hs
          subst hs
          exact Or.inl ⟨s, henv⟩
        · intro off hmem
          simp at hmem
  · -- lett
    intro bs body hq hp env k instrs h
    cases hcb : compileBindings bs env k with
    | error err => simp [compile_expr, hcb] at h
    | ok t =>
        obtain ⟨is1, env2, k2⟩ := t
        cases hcb2 : compile_expr body env2 k2 with
        | error err => simp [compile_expr, hcb, hcb2] at h
        | ok is2 =>
            have hinstrs : instrs = is1 ++ is2 := by
              simp [compile_expr, hcb, hcb2] at h
              exact h.symm
            subst hinstrs
            obtain ⟨hq1, hq2, hqk, hqenv⟩ := hq env k is1 env2 k2 hcb
            obtain ⟨hp1, hp2⟩ := hp env2 k2 is2 hcb2
            refine ⟨?_, ?_⟩
            · intro i hi off hs
              rcases List.mem_append.mp hi with h1 | h2
              · exact hq1 i h1 off hs
              · rcases hp1 i h2 off hs with ⟨n, hn⟩ | hk2
                · rcases hqenv n off hn with ⟨m, hm⟩ | ⟨hge, _⟩
                  · exact Or.inl ⟨m, hm⟩
                  · exact Or.inr hge
                · exact Or.inr (le_trans hqk hk2)
            · intro off hmem
              rcases List.mem_append.mp hmem with h1 | h2
              · exact hq2 off h1
              · exact le_trans hqk (hp2 off h2)
  · -- unop
    intro op e hpe env k instrs h
    cases hc : compile_expr e env k with
    | error err => simp [compile_expr, hc] at h
    | ok is1 =>
        obtain ⟨hp1, hp2⟩ := hpe env k is1 hc
        cases op with
        | add1 =>
            have hi : instrs = is1 ++ [.addRaxOne] := by
              simp [compile_expr, hc] at h
              exact h.symm
            subst hi
            exact append_no_slot_inv is1 Instr.addRaxOne rfl env k hp1 hp2
        | sub1 =>
            have hi : instrs = is1 ++ [.subRaxOne] := by
              simp [compile_expr, hc] at h
              exact h.symm
            subst hi
            exact append_no_slot_inv is1 Instr.subRaxOne rfl env k hp1 hp2
        | negate =>
            have hi : instrs = is1 ++ [.imulRaxNegOne] := by
              simp [compile_expr, hc] at h
              exact h.symm
            subst hi
            exact append_no_slot_inv is1 Instr.imulRaxNegOne rfl env k hp1 hp2
  · -- binop
    intro op e1 e2 hpe1 hpe2 env k instrs h
    cases hc1 : compile_expr e1 env k with
    | error err => simp [compile_expr, hc1] at h
    | ok is1 =>
        cases hc2 : compile_expr e2 env (k + 8) with
        | error err => simp [compile_expr, hc1, hc2] at h
        | ok is2 =>
            obtain ⟨h11, h12⟩ := hpe1 env k is1 hc1
            obtain ⟨h21, h22⟩ := hpe2 env (k + 8) is2 hc2
            have hmid : ∀ i ∈ is1 ++ [Instr.movSlotRax k] ++ is2,
                ∀ off, slotOf i = some off →
                (∃ n, envGet env n = some off) ∨ k ≤ off := by
              intro i hi off hs
              rcases List.mem_append.mp hi with h1 | h2
              · rcases List.mem_append.mp h1 with h3 | h4
                · exact h11 i h3 off hs
                · simp at h4
                  subst h4
                  simp [slotOf] at hs
                  subst hs
                  exact Or.inr le_rfl
              · rcases h21 i h2 off hs with he | hge
                · exact Or.inl he
                · exact Or.inr (by omega)
            have hmidStore : ∀ off,
                Instr.movSlotRax off ∈ is1 ++ [Instr.movSlotRax k] ++ is2 →
                k ≤ off := by
              intro off hmem
              rcases List.mem_append.mp hmem with h1 | h2
              · rcases List.mem_append.mp h1 with h3 | h4
                · exact h12 off h3
                · simp at h4
                  subst h4
                  exact le_rfl
              · exact le_trans (by omega) (h22 off h2)
            cases op with
            | plus =>
                have hi : instrs =
                    is1 ++ [Instr.movSlotRax k] ++ is2 ++ [.addRaxSlot k] := by
                  simp [compile_expr, hc1, hc2] at h
                  rw [← h]
                  simp
                subst hi
                refine ⟨?_, ?_⟩
                · intro i hi off hs
                  rcases List.mem_append.mp hi with h1 | h2
                  · exact hmid i h1 off hs
                  · simp at h2
                    subst h2
                    simp [slotOf] at hs
                    subst hs
                    exact Or.inr le_rfl
                · intro off hmem
                  rcases List.mem_append.mp hmem with h1 | h2
                  · exact hmidStore off h1
                  · simp at h2
            | minus =>
                have hi : instrs = is1 ++ [Instr.movSlotRax k] ++ is2 ++
                    [.movRbxSlot k, .subRbxRax, .movRaxRbx] := by
                  simp [compile_expr, hc1, hc2] at h
                  rw [← h]
                  simp
                subst hi
                refine ⟨?_, ?_⟩
                · intro i hi off hs
                  rcases List.mem_append.mp hi with h1 | h2
                  · exact hmid i h1 off hs
                  · simp at h2
                    rcases h2 with h2 | h2 | h2 <;> subst h2 <;>
                      simp [slotOf] at hs
                    subst hs
                    exact Or.inr le_rfl
                · intro off hmem
                  rcases List.mem_append.mp hmem with h1 | h2
                  · exact hmidStore off h1
                  · simp at h2
            | times =>
                have hi : instrs =
                    is1 ++ [Instr.movSlotRax k] ++ is2 ++ [.imulRaxSlot k] := by
                  simp [compile_expr, hc1, hc2] at h
                  rw [← h]
                  simp
                subst hi
                refine ⟨?_, ?_⟩
                · intro i hi off hs
                  rcases List.mem_append.mp hi with h1 | h2
                  · exact hmid i h1 off hs
                  · simp at h2
                    subst h2
                    simp [slotOf] at hs
                    subst hs
                    exact Or.inr le_rfl
                · intro off hmem
                  rcases List.mem_append.mp hmem with h1 | h2
                  · exact hmidStore off h1
                  · simp at h2
  · -- bindings nil
    intro env k instrs env2 k2 h
    simp [compileBindings] at h
    obtain ⟨h1, h2, h3⟩ := h
    subst h1
    subst h2
    subst h3
    refine ⟨?_, ?_, le_rfl, ?_⟩
    · intro i hi
      simp at hi
    · intro off hmem
      simp at hmem
    · intro n v hv
      exact Or.inl ⟨n, hv⟩
  · -- bindings cons
    intro n e rest hpe hqr env k instrs env2 k2 h
    cases hc : compile_expr e env k with
    | error err => simp [compileBindings, hc] at h
    | ok is1 =>
        cases hcr : compileBindings rest ((n, k) :: env) (k + 8) with
        | error err => simp [compileBindings, hc, hcr] at h
        | ok t =>
            obtain ⟨isr, envr, kr⟩ := t
            simp only [compileBindings, hc, hcr, Except.ok.injEq, Prod.mk.injEq] at h
            obtain ⟨hList, hEnv, hOff⟩ := h
            subst instrs
            subst env2
            subst k2
            obtain ⟨h11, h12⟩ := hpe env k is1 hc
            obtain ⟨hr1, hr2, hrk, hrenv⟩ := hqr ((n, k) :: env) (k + 8) isr envr kr hcr
            have henvCons : ∀ m v, envGet ((n, k) :: env) m = some v →
                (∃ m2, envGet env m2 = some v) ∨ v = k := by
              intro m v hm
              by_cases hnm : n = m
              · right
                simp [envGet, hnm] at hm
                omega
              · left
                simp [envGet, hnm] at hm
                exact ⟨m, hm⟩
            refine ⟨?_, ?_, by omega, ?_⟩
            · intro i hi off hs
              rcases List.mem_append.mp hi with h1 | h2
              · rcases List.mem_append.mp h1 with h3 | h4
                · exact h11 i h3 off hs
                · simp at h4
                  subst h4
                  simp [slotOf] at hs
                  subst hs
                  exact Or.inr le_rfl
              · rcases hr1 i h2 off hs with hev | hge
                · obtain ⟨m, hm⟩ := hev
                  rcases henvCons m off hm with ⟨m2, hm2⟩ | hoff
                  · exact Or.inl ⟨m2, hm2⟩
                  · exact Or.inr (by omega)
                · exact Or.inr (by omega)
            · intro off hmem
              rcases List.mem_append.mp hmem with h1 | h2
              · rcases List.mem_append.mp h1 with h3 | h4
                · exact h12 off h3
                · simp at h4
                  subst h4
                  exact le_rfl
              · exact le_trans (by omega) (hr2 off h2)
            · intro m v hv
              rcases hrenv m v hv with hev | ⟨hge, hlt⟩
              · obtain ⟨m2, hm2⟩ := hev
                rcases henvCons m2 v hm2 with ⟨m3, hm3⟩ | hvk
                · exact Or.inl ⟨m3, hm3⟩
                · exact Or.inr ⟨by omega, by omega⟩
              · exact Or.inr ⟨by omega, hlt⟩

/-- Claim C10: if `compile_expr e env k` succeeds, every slot offset the
emitted instructions mention is either in the image of `env` or at least
`k`; in particular every store targets a slot at or above `k`, so
running the generated code leaves every slot below the cursor `k`
(including every slot the caller's environment maps to) unchanged. -/
theorem claim_c10_slots_above_cursor (e : Expr) (env : Env) (k : Int)
    (instrs : List Instr) (h : compile_expr e env k = .ok instrs) :
    (∀ i ∈ instrs, ∀ off, slotOf i = some off →
       (∃ n, envGet env n = some off) ∨ k ≤ off) ∧
    (∀ off, Instr.movSlotRax off ∈ instrs → k ≤ off) ∧
    (∀ (s : Machine) (j : Int), j < k → (run s instrs).mem j = s.mem j) := by
  obtain ⟨h1, h2⟩ := compile_offsets_spec e env k instrs h
  exact ⟨h1, h2, run_mem_of_stores_ge instrs k h2⟩

theorem claim_c10_slots_above_cursor_witness :
    (run machine0 c1Instrs).mem 0 = machine0.mem 0 :=
  (claim_c10_slots_above_cursor c1Expr [] 8 c1Instrs rfl).2.2 machine0 0 (by decide)

end Boa

namespace Boa

/-- Running a singleton sequence is one step. -/
theorem run_one (s : Machine) (i : Instr) : run s [i] = step s i := rfl

/-- Running a concatenation runs the two parts in order. -/
theorem run_append (s : Machine) (l1 l2 : List Instr) :
    run s (l1 ++ l2) = run (run s l1) l2 := by
  simp [run]

/-- Successfully generated code leaves every slot below the incoming
cursor unchanged (all its stores target the cursor or above). -/
theorem compile_mem_below (e : Expr) (env : Env) (k : Int)
    (instrs : List Instr) (hc : compile_expr e env k = .ok instrs) :
    ∀ (s : Machine) (j : Int), j < k → (run s instrs).mem j = s.mem j :=
  run_mem_of_stores_ge instrs k (compile_offsets_spec e env k instrs hc).2

/-- Correctness of the code generator, proved together with its binding
loop: from any machine state realising the compile-time environment
(`EnvAgrees`) whose slots all lie below the cursor (`EnvBelow`), the
generated code computes the expression's reference value (`evalExpr`)
into `rax` and leaves every slot below the cursor unchanged; the binding
loop extends both environments and the store in agreement.  No live slot
is ever clobbered: every slot a later instruction reads still holds the
value the generator stored for it. -/
theorem compile_correct_spec :
    ∀ e : Expr, ∀ (env : Env) (venv : List (String × Int)) (k : Int)
      (instrs : List Instr) (s : Machine),
      compile_expr e env k = .ok instrs →
      EnvAgrees env venv s → EnvBelow env k →
      ∃ v, evalExpr e venv = some v ∧ (run s instrs).rax = v := by
  refine exprRecP
    (Q := fun bs => ∀ (env : Env) (venv : List (String × Int)) (k : Int)
      (instrs : List Instr) (env2 : Env) (k2 : Int) (s : Machine),
      compileBindings bs env k = .ok (instrs, env2, k2) →
      EnvAgrees env venv s → EnvBelow env k →
      ∃ venv2, evalBindings bs venv = some venv2 ∧
        EnvAgrees env2 venv2 (run s instrs) ∧ EnvBelow env2 k2 ∧ k ≤ k2)
    ?_ ?_ ?_ ?_ ?_ ?_ ?_
  · -- num
    intro n env venv k instrs s hc _ _
    simp [compile_expr] at hc
    subst hc
    exact ⟨n, rfl, rfl⟩
  · -- var
    intro name env venv k instrs s hc hagree _
    cases henv : envGet env name with
    | none => simp [compile_expr, henv] at hc
    | some off =>
        simp [compile_expr, henv] at hc
        subst hc
        obtain ⟨v, hv, hmem⟩ := hagree name off henv
        exact ⟨v, by simp [evalExpr, hv], by rw [run_one]; simpa [step] using hmem⟩
  · -- lett
    intro bs body hq hp env venv k instrs s hc hagree hbelow
    cases hcb : compileBindings bs env k with
    | error err => simp [compile_expr, hcb] at hc
    | ok t =>
        obtain ⟨is1, env2, k2⟩ := t
        cases hcb2 : compile_expr body env2 k2 with
        | error err => simp [compile_expr, hcb, hcb2] at hc
        | ok is2 =>
            have hi : instrs = is1 ++ is2 := by
              simp [compile_expr, hcb, hcb2] at hc
              exact hc.symm
            subst hi
            obtain ⟨venv2, heval, hagree2, hbelow2, _⟩ :=
              hq env venv k is1 env2 k2 s hcb hagree hbelow
            obtain ⟨v, hev, hrax⟩ :=
              hp env2 venv2 k2 is2 (run s is1) hcb2 hagree2 hbelow2
            refine ⟨v, ?_, ?_⟩
            · simp [evalExpr, heval, hev]
            · rw [run_append]
              exact hrax
  · -- unop
    intro op e hpe env venv k instrs s hc hagree hbelow
    cases hc1 : compile_expr e env k with
    | error err => simp [compile_expr, hc1] at hc
    | ok is1 =>
        obtain ⟨v, hev, hrax⟩ := hpe env venv k is1 s hc1 hagree hbelow
        cases op with
        | add1 =>
            have hi : instrs = is1 ++ [.addRaxOne] := by
              simp [compile_expr, hc1] at hc
              exact hc.symm
            subst hi
            refine ⟨v + 1, by simp [evalExpr, hev, unopEval], ?_⟩
            rw [run_append, run_one]
            simp only [step]
            rw [hrax]
        | sub1 =>
            have hi : instrs = is1 ++ [.subRaxOne] := by
              simp [compile_expr, hc1] at hc
              exact hc.symm
            subst hi
            refine ⟨v - 1, by simp [evalExpr, hev, unopEval], ?_⟩
            rw [run_append, run_one]
            simp only [step]
            rw [hrax]
        | negate =>
            have hi : instrs = is1 ++ [.imulRaxNegOne] := by
              simp [compile_expr, hc1] at hc
              exact hc.symm
            subst hi
            refine ⟨v * (-1), by simp [evalExpr, hev, unopEval], ?_⟩
            rw [run_append, run_one]
            simp only [step]
            rw [hrax]
  · -- binop
    intro op e1 e2 hp1 hp2 env venv k instrs s hc hagree hbelow
    cases hc1 : compile_expr e1 env k with
    | error err => simp [compile_expr, hc1] at hc
    | ok is1 =>
        cases hc2 : compile_expr e2 env (k + 8) with
        | error err => simp [compile_expr, hc1, hc2] at hc
        | ok is2 =>
            obtain ⟨v1, hev1, hrax1⟩ := hp1 env venv k is1 s hc1 hagree hbelow
            have hmem1 := compile_mem_below e1 env k is1 hc1
            have hagree2 : EnvAgrees env venv
                (step (run s is1) (.movSlotRax k)) := by
              intro n off hoff
              obtain ⟨v, hv, hmem⟩ := hagree n off hoff
              have hlt := hbelow n off hoff
              refine ⟨v, hv, ?_⟩
              simp only [step]
              rw [if_neg (by omega), hmem1 s off hlt]
              exact hmem
            have hbelow2 : EnvBelow env (k + 8) := by
              intro n off hoff
              have := hbelow n off hoff
              omega
            obtain ⟨v2, hev2, hrax2⟩ :=
              hp2 env venv (k + 8) is2 (step (run s is1) (.movSlotRax k))
                hc2 hagree2 hbelow2
            have hmem2 := compile_mem_below e2 env (k + 8) is2 hc2
            have hslotk :
                (run (step (run s is1) (.movSlotRax k)) is2).mem k = v1 := by
              rw [hmem2 _ k (by omega)]
              have hms : (step (run s is1) (Instr.movSlotRax k)).mem k =
                  (run s is1).rax := by
                simp [step]
              rw [hms]
              exact hrax1
            cases op with
            | plus =>
                have hi : instrs =
                    is1 ++ [Instr.movSlotRax k] ++ is2 ++ [.addRaxSlot k] := by
                  simp [compile_expr, hc1, hc2] at hc
                  rw [← hc]
                  simp
                subst hi
                refine ⟨v1 + v2, by simp [evalExpr, hev1, hev2, binopEval], ?_⟩
                rw [run_append, run_append, run_append]
                show (run (step (run s is1) (Instr.movSlotRax k)) is2).rax +
                    (run (step (run s is1) (Instr.movSlotRax k)) is2).mem k =
                    v1 + v2
                rw [hrax2, hslotk]
                omega
            | minus =>
                have hi : instrs = is1 ++ [Instr.movSlotRax k] ++ is2 ++
                    [.movRbxSlot k, .subRbxRax, .movRaxRbx] := by
                  simp [compile_expr, hc1, hc2] at hc
                  rw [← hc]
                  simp
                subst hi
                refine ⟨v1 - v2, by simp [evalExpr, hev1, hev2, binopEval], ?_⟩
                rw [run_append, run_append, run_append]
                show (run (step (run s is1) (Instr.movSlotRax k)) is2).mem k -
                    (run (step (run s is1) (Instr.movSlotRax k)) is2).rax =
                    v1 - v2
                rw [hrax2, hslotk]
            | times =>
                have hi : instrs =
                    is1 ++ [Instr.movSlotRax k] ++ is2 ++ [.imulRaxSlot k] := by
                  simp [compile_expr, hc1, hc2] at hc
                  rw [← hc]
                  simp
                subst hi
                refine ⟨v1 * v2, by simp [evalExpr, hev1, hev2, binopEval], ?_⟩
                rw [run_append, run_append, run_append]
                show (run (step (run s is1) (Instr.movSlotRax k)) is2).rax *
                    (run (step (run s is1) (Instr.movSlotRax k)) is2).mem k =
                    v1 * v2
                rw [hrax2, hslotk]
                exact Int.mul_comm v2 v1
  · -- bindings nil
    intro env venv k instrs env2 k2 s h hagree hbelow
    simp only [compileBindings, Except.ok.injEq, Prod.mk.injEq] at h
    obtain ⟨h1, h2, h3⟩ := h
    subst instrs
    subst env2
    subst k2
    exact ⟨venv, rfl, hagree, hbelow, le_rfl⟩
  · -- bindings cons
    intro n e rest hpe hqr env venv k instrs env2 k2 s h hagree hbelow
    cases hc : compile_expr e env k with
    | error err => simp [compileBindings, hc] at h
    | ok is1 =>
        cases hcr : compileBindings rest ((n, k) :: env) (k + 8) with
        | error err => simp [compileBindings, hc, hcr] at h
        | ok t =>
            obtain ⟨isr, envr, kr⟩ := t
            simp only [compileBindings, hc, hcr, Except.ok.injEq, Prod.mk.injEq] at h
            obtain ⟨hL, hE, hK⟩ := h
            subst instrs
            subst env2
            subst k2
            obtain ⟨v, hev, hrax⟩ := hpe env venv k is1 s hc hagree hbelow
            have hmem1 := compile_mem_below e env k is1 hc
            have hagree2 : EnvAgrees ((n, k) :: env) ((n, v) :: venv)
                (step (run s is1) (.movSlotRax k)) := by
              intro m off hoff
              by_cases hnm : n = m
              · simp only [envGet, if_pos hnm, Option.some.injEq] at hoff
                subst hoff
                refine ⟨v, by simp [envGet, hnm], ?_⟩
                simp only [step]
                simpa using hrax
              · simp only [envGet, if_neg hnm] at hoff
                obtain ⟨w, hw, hmemw⟩ := hagree m off hoff
                have hlt := hbelow m off hoff
                refine ⟨w, by simp [envGet, hnm, hw], ?_⟩
                simp only [step]
                rw [if_neg (by omega), hmem1 s off hlt]
                exact hmemw
            have hbelow2 : EnvBelow ((n, k) :: env) (k + 8) := by
              intro m off hoff
              by_cases hnm : n = m
              · simp only [envGet, if_pos hnm, Option.some.injEq] at hoff
                omega
              · simp only [envGet, if_neg hnm] at hoff
                have := hbelow m off hoff
                omega
            obtain ⟨venv2, hevalr, hagreer, hbelowr, hkr⟩ :=
              hqr ((n, k) :: env) ((n, v) :: venv) (k + 8) isr envr kr
                (step (run s is1) (.movSlotRax k)) hcr hagree2 hbelow2
            refine ⟨venv2, ?_, ?_, hbelowr, by omega⟩
            · simp [evalBindings, hev, hevalr]
            · rw [run_append, run_append, run_one]
              exact hagreer

end Boa

namespace Boa

/-- Claim C9, amended: the store offsets of the output sequence need not
be globally monotone (see the counterexample: a binary operator's spill
may reuse an offset a completed inner let used), but along any recursion
the cursor only grows (`compile_offsets_spec`) and no store ever
clobbers a slot whose value is still needed: from any state realising
the environment below the cursor, the generated code computes the
expression's reference value into the accumulator and leaves every slot
below the cursor untouched. -/
theorem claim_c9_amended_no_live_clobber (e : Expr) (env : Env)
    (venv : List (String × Int)) (k : Int) (instrs : List Instr) (s : Machine)
    (hc : compile_expr e env k = .ok instrs)
    (hagree : EnvAgrees env venv s) (hbelow : EnvBelow env k) :
    ∃ v, evalExpr e venv = some v ∧ (run s instrs).rax = v ∧
      ∀ j, j < k → (run s instrs).mem j = s.mem j := by
  obtain ⟨v, hev, hrax⟩ :=
    compile_correct_spec e env venv k instrs s hc hagree hbelow
  exact ⟨v, hev, hrax, compile_mem_below e env k instrs hc s⟩

theorem claim_c9_amended_no_live_clobber_witness :
    ∃ v, evalExpr c9Expr [] = some v ∧ (run machine0 c9Instrs).rax = v ∧
      ∀ j, j < 8 → (run machine0 c9Instrs).mem j = machine0.mem j :=
  claim_c9_amended_no_live_clobber c9Expr [] [] 8 c9Instrs machine0 rfl
    (fun n off h => by simp [envGet] at h)
    (fun n off h => by simp [envGet] at h)

/-- A successful run of the binding loop implies the names of its
well-shaped binding pairs are pairwise distinct and disjoint from the
already-seen set. -/
theorem parseBindings_ok_nodup (bs : List Sexp) :
    ∀ (seen : List String) (res : List (String × Expr)),
      parseBindings seen bs = .ok res →
      (bindingNames bs).Nodup ∧ ∀ m ∈ bindingNames bs, m ∉ seen := by
  induction bs with
  | nil =>
      intro seen res _
      simp [bindingNames]
  | cons b rest ih =>
      intro seen res h
      cases b with
      | atom a => simp [parseBindings] at h
      | list l =>
          cases l with
          | nil => simp [parseBindings] at h
          | cons x xs =>
              cases xs with
              | nil => simp [parseBindings] at h
              | cons y ys =>
                  cases ys with
                  | cons z zs => simp [parseBindings] at h
                  | nil =>
                      cases x with
                      | list l2 => simp [parseBindings] at h
                      | atom a =>
                          cases a with
                          | i n2 => simp [parseBindings] at h
                          | s name =>
                              simp only [parseBindings] at h
                              by_cases h1 : name ∈ seen
                              · simp [h1] at h
                              · by_cases h2 : isKeyword name
                                · simp [h1, h2] at h
                                · cases hp : parse_expr y with
                                  | error e2 => simp [h1, h2, hp] at h
                                  | ok parsed =>
                                      cases hr : parseBindings (name :: seen) rest with
                                      | error e2 => simp [h1, h2, hp, hr] at h
                                      | ok restParsed =>
                                          obtain ⟨hnd, hni⟩ := ih (name :: seen) restParsed hr
                                          have hname : bindingNames
                                              (.list [.atom (.s name), y] :: rest) =
                                              name :: bindingNames rest := rfl
                                          rw [hname]
                                          constructor
                                          · refine List.nodup_cons.mpr ⟨?_, hnd⟩
                                            intro hmem
                                            exact (hni name hmem) (List.mem_cons_self _ _)
                                          · intro m hm
                                            rcases List.mem_cons.mp hm with hm1 | hm2
                                            · subst hm1
                                              exact h1
                                            · intro hseen
                                              exact (hni m hm2)
                                                (List.mem_cons_of_mem _ hseen)

/-- Claim C6, amended: building `(let ((x 1) (x 2)) x)` fails with
`DuplicateBinding("x")`; in general, whenever the same name appears in
two binding pairs of a `let` form, the build fails and returns no
expression at all — though when an earlier binding is itself malformed
the reported failure may be that earlier error rather than
`DuplicateBinding` (see the counterexample). -/
theorem claim_c6_amended_duplicate_binding :
    parse_expr c6Input = .error (.duplicateBinding "x") ∧
    ∀ (bs : List Sexp) (body : Sexp), ¬ (bindingNames bs).Nodup →
      exOk (parse_expr (.list [.atom (.s "let"), .list bs, body])) = false := by
  refine ⟨rfl, ?_⟩
  intro bs body hdup
  cases bs with
  | nil => exact absurd List.nodup_nil hdup
  | cons b rest =>
      cases hpb : parseBindings [] (b :: rest) with
      | error e => simp [parse_expr, hpb, exOk]
      | ok res =>
          obtain ⟨hnd, _⟩ := parseBindings_ok_nodup (b :: rest) [] res hpb
          exact absurd hnd hdup

theorem claim_c6_amended_duplicate_binding_witness :
    exOk (parse_expr (.list [.atom (.s "let"),
      .list [.list [.atom (.s "y"), .atom (.i 1)],
             .list [.atom (.s "y"), .atom (.i 2)]],
      .atom (.s "y")])) = false :=
  claim_c6_amended_duplicate_binding.2
    [.list [.atom (.s "y"), .atom (.i 1)], .list [.atom (.s "y"), .atom (.i 2)]]
    (.atom (.s "y")) (by decide)

end Boa
